import Mathlib

/-!
# EvoBF — verification of the spec against the source

Shallow embedding of the EvoBF repository (a BrainFuck interpreter plus a
simple genetic-algorithm evolver) and proofs of the specification claims.

Programs are `List Char`, tapes are `List Int` with values kept in the
signed-byte range by explicit wrapping, and the Python `random.Random`
source is modelled as a stream of natural numbers consumed one draw at a
time (each concrete draw outcome is realisable by some stream, so a claim
quantified over "every random stream" is quantified over all outcome
sequences).
-/

namespace EvoBF

/-! ## Random source model

Python's `random.Random` is a stateful stream.  We model it as an infinite
stream of natural numbers together with a cursor; every primitive draw
(`random() < rate`, `randint`, `choice`, `choices`) consumes exactly one
element of the stream.  `random()` is modelled with a fixed denominator so
that the comparison with a rational rate is exact. -/

structure Rng where
  stream : Nat → Nat
  idx : Nat

def Rng.next (r : Rng) : Nat × Rng :=
  (r.stream r.idx, ⟨r.stream, r.idx + 1⟩)

/-- Model of `rng.random()`: a rational in `[0, 1)` with denominator `2^32`. -/
def Rng.random (r : Rng) : ℚ × Rng :=
  let (n, r') := r.next
  (((n % 2 ^ 32 : ℕ) : ℚ) / (2 ^ 32 : ℚ), r')

/-- Model of `rng.randint(low, high)` for `low ≤ high`: uniform integer in
`[low, high]`; the stream value is reduced modulo the range width. -/
def Rng.randint (r : Rng) (low high : Int) : Int × Rng :=
  let (n, r') := r.next
  (low + (n : Int) % (high - low + 1), r')

/-- Model of `rng.choice(seq)`: uniform choice over a sequence; raises
(`none`) on an empty sequence, exactly as Python's `IndexError`. -/
def Rng.choice {α : Type} (r : Rng) (l : List α) : Option (α × Rng) :=
  match l with
  | [] => none
  | x :: xs =>
    let (n, r') := r.next
    some ((x :: xs).getD (n % (x :: xs).length) x, r')

/-- Model of `rng.choice(seq)` for a sequence known non-empty (the
constant alphabets in the evolver); same computation as `Rng.choice`, the
default `d` is only read on an empty sequence. -/
def Rng.choiceNE {α : Type} (r : Rng) (l : List α) (d : α) : α × Rng :=
  let (n, r') := r.next
  (l.getD (n % l.length) d, r')

/-- Cumulative-weight index inversion used by `rng.choices`: the first
index whose cumulative weight (clamped at 0 like Python's sampling over
non-negative weights) exceeds the draw `t`. -/
def pickIdx : List Int → Nat → Nat
  | [], _ => 0
  | wi :: ws, t => if t < wi.toNat then 0 else pickIdx ws (t - wi.toNat) + 1

/-- Model of `rng.choices(seq, weights, k=1)[0]` with non-negative integer
weights of positive total: draw a value `t` uniformly in `[0, total)` and
return the element at the first index whose cumulative weight exceeds `t`
(this is Python's bisect over accumulated weights, discretised).  Returns
`none` (Python raises) when the total weight is zero or the selected index
falls outside `seq`. -/
def Rng.choicesWeighted {α : Type} (r : Rng) (l : List α) (w : List Int) :
    Option (α × Rng) :=
  let total := (w.map Int.toNat).sum
  if total = 0 then none
  else
    let (n, r') := r.next
    let t := n % total
    match l.get? (pickIdx w t) with
    | none => none
    | some x => some (x, r')

/-! ## Executor (`src/executor.py`) -/

/-- `_wrap_byte`: wrap an integer to the signed byte range `[-128, 127]`.
Python's `%` on a positive modulus agrees with Lean's `Int.emod`. -/
def wrap_byte (value : Int) : Int :=
  (value + 128) % 256 - 128

/-- One step of `_build_bracket_map`'s left-to-right pass: the state is the
stack of open-`[` positions and the accumulated pair list (the Python dict,
modelled as an association list — all keys are distinct, see
`bracket_map_keys_nodup`). -/
def bmStep (st : List Nat × List (Nat × Nat)) (pc : Nat × Char) :
    List Nat × List (Nat × Nat) :=
  let stack := st.1
  let pairs := st.2
  let pos := pc.1
  let c := pc.2
  if c = '[' then (pos :: stack, pairs)
  else if c = ']' then
    match stack with
    | [] => (stack, pairs)
    | open_pos :: rest => (rest, (pos, open_pos) :: (open_pos, pos) :: pairs)
  else (stack, pairs)

/-- Run the bracket-matching pass over the first `i` characters, returning
the (stack, pairs) state. -/
def bmRun (program : List Char) (i : Nat) : List Nat × List (Nat × Nat) :=
  ((program.take i).enum).foldl bmStep ([], [])

/-- `_build_bracket_map program`: the final pair list. -/
def build_bracket_map (program : List Char) : List (Nat × Nat) :=
  (bmRun program program.length).2

/-- Dictionary lookup in the bracket map. -/
def bmLookup (pairs : List (Nat × Nat)) (k : Nat) : Option Nat :=
  (pairs.find? (fun e => e.1 = k)).map (·.2)

/-- The bracket-matching pass as an explicit recursion over the suffix of
characters starting at position `n`; provably equal to the `foldl` over
`enumerate` (`bmRunAux_enumFrom`), and the vehicle for the invariant
proofs. -/
def bmRunAux : List Char → Nat → List Nat × List (Nat × Nat) →
    List Nat × List (Nat × Nat)
  | [], _, st => st
  | c :: cs, n, st => bmRunAux cs (n + 1) (bmStep st (n, c))

/-- The (stack, pairs) state of the bracket-matching pass just before
position `p` is processed. -/
def bmState (program : List Char) (p : Nat) : List Nat × List (Nat × Nat) :=
  bmRunAux (program.take p) 0 ([], [])

/-- Invariant of the bracket-matching pass after the first `n` positions:
stack entries are positions of `[` seen so far in strictly decreasing
order; recorded pairs are bounded by `n`, symmetric, with pairwise
distinct keys disjoint from the stack; and each pair joins a `[` with the
`]` to its right. -/
def BMInv (program : List Char) (n : Nat)
    (st : List Nat × List (Nat × Nat)) : Prop :=
  (∀ s ∈ st.1, s < n ∧ program.getD s ' ' = '[') ∧
  st.1.Pairwise (· > ·) ∧
  (∀ e ∈ st.2, e.1 < n ∧ e.2 < n) ∧
  (∀ e ∈ st.2, (e.2, e.1) ∈ st.2) ∧
  (st.2.map Prod.fst).Nodup ∧
  (∀ s ∈ st.1, ∀ e ∈ st.2, e.1 ≠ s) ∧
  (∀ e ∈ st.2, e.1 ≠ e.2 ∧
    ((program.getD e.1 ' ' = '[' ∧ program.getD e.2 ' ' = ']' ∧ e.1 < e.2) ∨
     (program.getD e.1 ' ' = ']' ∧ program.getD e.2 ' ' = '[' ∧ e.2 < e.1)))

/-- Execution state of `execute`'s main loop. -/
structure ExecState where
  tape : List Int
  dataPtr : Int
  instrPtr : Nat
  executed : Nat
deriving Repr, DecidableEq

/-- One iteration of `execute`'s `while` loop body, assuming the guard
holds (the current command is `program[instrPtr]`). -/
def execStep (program : List Char) (bm : List (Nat × Nat)) (size : Nat)
    (s : ExecState) : ExecState :=
  let command := program.getD s.instrPtr ' '
  let s' :=
    if command = '>' then { s with dataPtr := (s.dataPtr + 1) % (size : Int) }
    else if command = '<' then { s with dataPtr := (s.dataPtr - 1) % (size : Int) }
    else if command = '+' then
      { s with tape := s.tape.set s.dataPtr.toNat (wrap_byte (s.tape.getD s.dataPtr.toNat 0 + 1)) }
    else if command = '-' then
      { s with tape := s.tape.set s.dataPtr.toNat (wrap_byte (s.tape.getD s.dataPtr.toNat 0 - 1)) }
    else if command = '[' then
      if s.tape.getD s.dataPtr.toNat 0 = 0 then
        match bmLookup bm s.instrPtr with
        | some m => { s with instrPtr := m }
        | none => s
      else s
    else if command = ']' then
      if s.tape.getD s.dataPtr.toNat 0 ≠ 0 then
        match bmLookup bm s.instrPtr with
        | some m => { s with instrPtr := m }
        | none => s
      else s
    else s
  { s' with instrPtr := s'.instrPtr + 1, executed := s.executed + 1 }

/-- `execute`'s main loop: run while `instrPtr < program.length` and
`executed < steps`.  The recursion is on a fuel argument; since every
iteration increments `executed` by exactly 1, fuel `steps - s.executed`
(and in particular fuel `steps` from the initial state) suffices for the
guard `executed < steps` to fail before fuel runs out, so the fuel never
cuts the loop short (`execLoop_halted`). -/
def execLoop (program : List Char) (bm : List (Nat × Nat)) (size : Nat)
    (steps : Nat) : Nat → ExecState → ExecState
  | 0, s => s
  | fuel + 1, s =>
    if s.instrPtr < program.length ∧ s.executed < steps then
      execLoop program bm size steps fuel (execStep program bm size s)
    else s

/-- Tape initialisation in `execute`: pad with zeros when `initial` is
shorter than `size`, truncate otherwise, then wrap every cell. -/
def initTape (size : Nat) (initial : List Int) : List Int :=
  (if initial.length < size then
    initial ++ List.replicate (size - initial.length) 0
  else initial.take size).map wrap_byte

/-- `execute(program, steps=steps, size=size, initial=initial)`:
returns the final tape. -/
def execute (program : List Char) (steps size : Nat) (initial : List Int) :
    List Int :=
  let tape := initTape size initial
  let bm := build_bracket_map program
  (execLoop program bm size steps steps ⟨tape, 0, 0, 0⟩).tape

/-! ## Tasks and evaluation (`src/fitness.py`) -/

/-- The `Task` protocol: a tape size, an input generator and a fitness
function.  Fitness values in the provided tasks are negated absolute
errors, hence integers; scores are modelled as `Int`. -/
structure Task where
  size : Nat
  generate_input : Rng → List Int × Rng
  fitness : List Int → List Int → Int

/-- `AdditionTask.generate_input`: two operands drawn from the clamped
non-negative range, followed by zeros (`[a, b] + [0] * (size - 2)`;
Python's negative list-repeat gives `[]`, as does `Nat` subtraction). -/
def AdditionTask.generate_input (size : Nat) (min_value max_value : Int)
    (r : Rng) : List Int × Rng :=
  let low := max 0 min_value
  let high := max low max_value
  let (a, r1) := Rng.randint r low high
  let (b, r2) := Rng.randint r1 low high
  ([a, b] ++ List.replicate (size - 2) 0, r2)

/-- `AdditionTask.fitness`: negative absolute error between `final[0]`
and `initial[0] + initial[1]`. -/
def AdditionTask.fitness (initial final : List Int) : Int :=
  -|final.getD 0 0 - (initial.getD 0 0 + initial.getD 1 0)|

/-- `TripleAdditionTask.generate_input`: three operands from the clamped
non-negative range, followed by zeros. -/
def TripleAdditionTask.generate_input (size : Nat) (min_value max_value : Int)
    (r : Rng) : List Int × Rng :=
  let low := max 0 min_value
  let high := max low max_value
  let (a, r1) := Rng.randint r low high
  let (b, r2) := Rng.randint r1 low high
  let (c, r3) := Rng.randint r2 low high
  ([a, b, c] ++ List.replicate (size - 3) 0, r3)

/-- `TripleAdditionTask.fitness`: negative absolute error between
`final[0]` and the sum of the first three initial cells. -/
def TripleAdditionTask.fitness (initial final : List Int) : Int :=
  -|final.getD 0 0 - (initial.getD 0 0 + initial.getD 1 0 + initial.getD 2 0)|

/-- `AdditionTask(size, min_value, max_value)` as a `Task` value. -/
def additionTask (size : Nat) (min_value max_value : Int) : Task :=
  ⟨size, AdditionTask.generate_input size min_value max_value, AdditionTask.fitness⟩

/-- `TripleAdditionTask(size, min_value, max_value)` as a `Task` value. -/
def tripleAdditionTask (size : Nat) (min_value max_value : Int) : Task :=
  ⟨size, TripleAdditionTask.generate_input size min_value max_value,
    TripleAdditionTask.fitness⟩

/-- `[task.generate_input(rng) for _ in range(instances)]`: generate a
batch of task inputs, threading the random source left to right. -/
def genInputs (task : Task) : Nat → Rng → List (List Int) × Rng
  | 0, r => ([], r)
  | k + 1, r =>
    let (x, r1) := task.generate_input r
    let (xs, r2) := genInputs task k r1
    (x :: xs, r2)

/-- `evaluate(program, task=task, steps=steps, inputs=inputs)`: run the
program on every input and sum the per-instance task fitness. -/
def evaluate (program : List Char) (task : Task) (steps : Nat)
    (inputs : List (List Int)) : Int :=
  (inputs.map (fun initial =>
    task.fitness initial (execute program steps task.size initial))).sum

/-! ## Evolver (`src/evolver.py`) -/

/-- The instruction alphabet `INSTRUCTIONS = "><+-.,[]"`. -/
def INSTRUCTIONS : List Char := ['>', '<', '+', '-', '.', ',', '[', ']']

/-- The three mutation operations `["sub", "del", "ins"]`. -/
inductive MutOp where
  | sub
  | del
  | ins
deriving Repr, DecidableEq

/-- The `while i < len(chars)` scan of `_mutate`.  Structural recursion on
fuel: every iteration decreases `chars.length - i` by exactly 1 (deletion
shortens the list, every other outcome advances the cursor at least one
net position), so fuel `chars.length - i` runs the scan to completion
(`mutateLoop_fuel`). -/
def mutateLoop (rate : ℚ) : Nat → List Char → Nat → Rng → List Char × Rng
  | 0, chars, _, r => (chars, r)
  | fuel + 1, chars, i, r =>
    if i < chars.length then
      let (x, r1) := Rng.random r
      if x < rate then
        let (op, r2) := Rng.choiceNE r1 [MutOp.sub, MutOp.del, MutOp.ins] MutOp.sub
        match op with
        | MutOp.sub =>
          let (c, r3) := Rng.choiceNE r2 INSTRUCTIONS '>'
          mutateLoop rate fuel (chars.set i c) (i + 1) r3
        | MutOp.del =>
          mutateLoop rate fuel (chars.eraseIdx i) i r2
        | MutOp.ins =>
          let (c, r3) := Rng.choiceNE r2 INSTRUCTIONS '>'
          mutateLoop rate fuel (chars.insertIdx i c) (i + 2) r3
      else mutateLoop rate fuel chars (i + 1) r1
    else (chars, r)

/-- `_mutate(program, rng, rate)`: the in-place scan followed by the
independent chance of appending one random symbol. -/
def mutate (program : List Char) (r : Rng) (rate : ℚ) : List Char × Rng :=
  let (chars, r1) := mutateLoop rate program.length program 0 r
  let (x, r2) := Rng.random r1
  if x < rate then
    let (c, r3) := Rng.choiceNE r2 INSTRUCTIONS '>'
    (chars ++ [c], r3)
  else (chars, r2)

/-- `_crossover(a, b, rng)`: prefix of `a` up to a random cut joined to
the suffix of `b` from an independent random cut. -/
def crossover (a b : List Char) (r : Rng) : List Char × Rng :=
  if a = [] ∧ b = [] then ([], r)
  else
    let (cut_a, r1) := Rng.randint r 0 a.length
    let (cut_b, r2) := Rng.randint r1 0 b.length
    (a.take cut_a.toNat ++ b.drop cut_b.toNat, r2)

/-- The weight shift of `_select`: shift so the minimum becomes 0, applied
only when the minimum is negative. -/
def selectWeights (fitnesses : List Int) (min_fit : Int) : List Int :=
  if min_fit < 0 then fitnesses.map (· - min_fit) else fitnesses

/-- `_select(population, fitnesses, rng)`: fitness-proportional random
selection.  `none` models a raised exception (Python's `IndexError` from
`rng.choice` on an empty population, or `rng.choices` errors). -/
def select (population : List (List Char)) (fitnesses : List Int) (r : Rng) :
    Option (List Char × Rng) :=
  match fitnesses.min? with
  | none => Rng.choice r population
  | some min_fit =>
    let weights := selectWeights fitnesses min_fit
    if weights.sum = 0 then Rng.choice r population
    else Rng.choicesWeighted r population weights

/-- `best_score` is initialised to `float("-inf")`; scores are modelled as
`Option Int` with `none` for minus infinity.  `optLt b s` is
`s > best_score`. -/
def optLt (b : Option Int) (s : Int) : Bool :=
  match b with
  | none => true
  | some v => decide (v < s)

/-- Order on tracked best scores (`none` is minus infinity). -/
def optLe (a b : Option Int) : Bool :=
  match a, b with
  | none, _ => true
  | some _, none => false
  | some x, some y => decide (x ≤ y)

/-- State threaded through `evolve`'s generation loop. -/
structure EvolveState where
  population : List (List Char)
  best_prog : List Char
  best_score : Option Int
  rng : Rng

/-- The `while len(new_population) < population_size` breeding loop: with
probability `crossover_rate` cross two selected parents, otherwise copy
one selected parent; always mutate; append.  Each iteration appends
exactly one offspring, so fuel `population_size` suffices.  `none`
propagates a selection error. -/
def breedLoop (population : List (List Char)) (fitnesses : List Int)
    (population_size : Nat) (crossover_rate mutation_rate : ℚ) :
    Nat → List (List Char) → Rng → Option (List (List Char) × Rng)
  | 0, newPop, r => some (newPop, r)
  | fuel + 1, newPop, r =>
    if newPop.length < population_size then
      let (x, r1) := Rng.random r
      if x < crossover_rate then
        match select population fitnesses r1 with
        | none => none
        | some (parent1, r2) =>
          match select population fitnesses r2 with
          | none => none
          | some (parent2, r3) =>
            let (child, r4) := crossover parent1 parent2 r3
            let (child', r5) := mutate child r4 mutation_rate
            breedLoop population fitnesses population_size crossover_rate
              mutation_rate fuel (newPop ++ [child']) r5
      else
        match select population fitnesses r1 with
        | none => none
        | some (parent, r2) =>
          let (child', r3) := mutate parent r2 mutation_rate
          breedLoop population fitnesses population_size crossover_rate
            mutation_rate fuel (newPop ++ [child']) r3
    else some (newPop, r)

/-- One generation of `evolve`: evaluate the population on a shared fresh
batch, sort descending by score (Python's stable sort with
`reverse=True`), update the best-ever pair on strict improvement, keep the
elites and breed the rest.  `none` models a raised exception (indexing
`scores[0]` of an empty population, or a selection error). -/
def genStep (task : Task) (instances steps population_size elite_count : Nat)
    (mutation_rate crossover_rate : ℚ) (st : EvolveState) :
    Option EvolveState :=
  let (eval_inputs, r1) := genInputs task instances st.rng
  let scores := st.population.map (fun prog => evaluate prog task steps eval_inputs)
  let pairs := (st.population.zip scores).mergeSort (fun p q => decide (q.2 ≤ p.2))
  match pairs with
  | [] => none
  | (p0, s0) :: _ =>
    let population := pairs.map Prod.fst
    let sorted_scores := pairs.map Prod.snd
    let best := if optLt st.best_score s0 then (p0, some s0)
      else (st.best_prog, st.best_score)
    let elites := population.take elite_count
    match breedLoop population sorted_scores population_size crossover_rate
        mutation_rate population_size elites r1 with
    | none => none
    | some (new_population, r2) =>
      some ⟨new_population, best.1, best.2, r2⟩

/-- The `for gen in range(generations)` loop of `evolve`. -/
def evolveLoop (task : Task) (instances steps population_size elite_count : Nat)
    (mutation_rate crossover_rate : ℚ) : Nat → EvolveState → Option EvolveState
  | 0, st => some st
  | g + 1, st =>
    match genStep task instances steps population_size elite_count
        mutation_rate crossover_rate st with
    | none => none
    | some st' =>
      evolveLoop task instances steps population_size elite_count
        mutation_rate crossover_rate g st'

/-- `max(range(len(scores)), key=lambda i: final_scores[i])` scanning with
the current best index and value: Python's `max` keeps the first index
among ties (replaces only on strict improvement). -/
def argmaxAux (bestIdx : Nat) (bestVal : Int) (i : Nat) : List Int → Nat × Int
  | [] => (bestIdx, bestVal)
  | v :: vs =>
    if bestVal < v then argmaxAux i v (i + 1) vs
    else argmaxAux bestIdx bestVal (i + 1) vs

/-- First index of the maximum of a list of scores (`none` on an empty
list, where Python's `max` raises `ValueError`). -/
def argmax : List Int → Option (Nat × Int)
  | [] => none
  | s :: rest => some (argmaxAux 0 s 1 rest)

/-- The final evaluation round of `evolve`: a fresh input batch over the
last population, returning the best (program, score) of that round. -/
def finalRound (task : Task) (instances steps : Nat)
    (population : List (List Char)) (r : Rng) : Option (List Char × Int) :=
  let (final_inputs, _) := genInputs task instances r
  let final_scores := population.map (fun prog => evaluate prog task steps final_inputs)
  match argmax final_scores with
  | none => none
  | some (best_idx, _) =>
    some (population.getD best_idx [], final_scores.getD best_idx 0)

/-- `evolve(population_size, elite_count, generations, ...)`: start from a
population of empty programs, run the generation loop, then one final
evaluation round. -/
def evolve (population_size elite_count generations : Nat)
    (mutation_rate crossover_rate : ℚ) (task : Task) (instances steps : Nat)
    (r : Rng) : Option (List Char × Int) :=
  let population := List.replicate population_size ([] : List Char)
  match evolveLoop task instances steps population_size elite_count
      mutation_rate crossover_rate generations ⟨population, [], none, r⟩ with
  | none => none
  | some st => finalRound task instances steps st.population st.rng

/-! ## Call surface of `src/main.py` -/

/-- The parameter names accepted by `evolve` in `src/evolver.py`
(positional-or-keyword and keyword-only; the function has no `**kwargs`
catch-all). -/
def evolveParamNames : List String :=
  ["population_size", "elite_count", "generations", "mutation_rate",
   "crossover_rate", "task", "instances", "steps", "rng", "verbose"]

/-- The keyword-argument names `main` passes in its call to `evolve`. -/
def mainEvolveKeywordArgs : List String :=
  ["mutation_rate", "crossover_rate", "task", "instances", "steps",
   "init_length", "rng", "verbose"]

/-- Python call semantics: a call with a keyword argument that matches no
parameter of a function without `**kwargs` raises `TypeError` before the
function body runs. -/
def mainEvolveCallRaisesTypeError : Bool :=
  mainEvolveKeywordArgs.any (fun k => !(evolveParamNames.contains k))

/-- The execution-state invariant of `execute`'s loop: the tape has exactly
`size` cells, every cell is a signed byte, and the data pointer is a valid
index in `[0, size)`. -/
def ExecInv (size : Nat) (s : ExecState) : Prop :=
  s.tape.length = size ∧ (∀ v ∈ s.tape, -128 ≤ v ∧ v ≤ 127) ∧
    0 ≤ s.dataPtr ∧ s.dataPtr < (size : Int)

theorem wrap_byte_range (v : Int) : -128 ≤ wrap_byte v ∧ wrap_byte v ≤ 127 := by
  unfold wrap_byte
  have h0 : 0 ≤ (v + 128) % 256 := Int.emod_nonneg _ (by norm_num)
  have h1 : (v + 128) % 256 < 256 := Int.emod_lt_of_pos _ (by norm_num)
  omega

theorem initTape_length (size : Nat) (initial : List Int) :
    (initTape size initial).length = size := by
  unfold initTape
  by_cases h : initial.length < size <;> simp [h] <;> omega

theorem initTape_range (size : Nat) (initial : List Int) :
    ∀ v ∈ initTape size initial, -128 ≤ v ∧ v ≤ 127 := by
  intro v hv
  unfold initTape at hv
  obtain ⟨w, _, rfl⟩ := List.mem_map.mp hv
  exact wrap_byte_range w

/-- Every loop iteration at most writes one wrapped byte at the current
cell and moves the data pointer by one modulo `size`. -/
theorem execStep_cases (program : List Char) (bm : List (Nat × Nat))
    (size : Nat) (s : ExecState) :
    ((execStep program bm size s).tape = s.tape ∨
      ∃ w, (execStep program bm size s).tape =
        s.tape.set s.dataPtr.toNat (wrap_byte w)) ∧
    ((execStep program bm size s).dataPtr = s.dataPtr ∨
      (execStep program bm size s).dataPtr = (s.dataPtr + 1) % (size : Int) ∨
      (execStep program bm size s).dataPtr = (s.dataPtr - 1) % (size : Int)) := by
  simp only [execStep]
  rcases hbm : bmLookup bm s.instrPtr with _ | m <;>
    simp only [hbm] <;> split_ifs <;>
    refine ⟨?_, ?_⟩ <;> simp <;>
    exact Or.inr ⟨_, rfl⟩

theorem execStep_inv (program : List Char) (bm : List (Nat × Nat))
    (size : Nat) (hsize : 0 < size) (s : ExecState) (hs : ExecInv size s) :
    ExecInv size (execStep program bm size s) := by
  obtain ⟨hlen, hrange, hptr0, hptrlt⟩ := hs
  obtain ⟨htape, hptr⟩ := execStep_cases program bm size s
  refine ⟨?_, ?_, ?_, ?_⟩
  · rcases htape with h | ⟨w, h⟩ <;> rw [h] <;> simp [hlen]
  · intro v hv
    rcases htape with h | ⟨w, h⟩ <;> rw [h] at hv
    · exact hrange v hv
    · rcases List.mem_or_eq_of_mem_set hv with h' | rfl
      · exact hrange v h'
      · exact wrap_byte_range w
  · rcases hptr with h | h | h <;> rw [h]
    · exact hptr0
    · exact Int.emod_nonneg _ (by exact_mod_cast hsize.ne')
    · exact Int.emod_nonneg _ (by exact_mod_cast hsize.ne')
  · rcases hptr with h | h | h <;> rw [h]
    · exact hptrlt
    · exact Int.emod_lt_of_pos _ (by exact_mod_cast hsize)
    · exact Int.emod_lt_of_pos _ (by exact_mod_cast hsize)

theorem execLoop_inv (program : List Char) (bm : List (Nat × Nat))
    (size : Nat) (hsize : 0 < size) (steps fuel : Nat) (s : ExecState)
    (hs : ExecInv size s) :
    ExecInv size (execLoop program bm size steps fuel s) := by
  induction fuel generalizing s with
  | zero => exact hs
  | succ fuel ih =>
    rw [execLoop]
    split
    · exact ih _ (execStep_inv program bm size hsize s hs)
    · exact hs

theorem execStep_executed (program : List Char) (bm : List (Nat × Nat))
    (size : Nat) (s : ExecState) :
    (execStep program bm size s).executed = s.executed + 1 := by
  rfl

theorem execLoop_executed_le (program : List Char) (bm : List (Nat × Nat))
    (size steps fuel : Nat) (s : ExecState) (hs : s.executed ≤ steps) :
    (execLoop program bm size steps fuel s).executed ≤ steps := by
  induction fuel generalizing s with
  | zero => exact hs
  | succ fuel ih =>
    rw [execLoop]
    split
    · next h => exact ih _ (by rw [execStep_executed]; omega)
    · exact hs

/-- When the fuel dominates `steps - executed`, the loop runs to an actual
halt: the final state fails the `while` guard. -/
theorem execLoop_halted (program : List Char) (bm : List (Nat × Nat))
    (size steps fuel : Nat) (s : ExecState) (hf : steps - s.executed ≤ fuel) :
    ¬((execLoop program bm size steps fuel s).instrPtr < program.length ∧
      (execLoop program bm size steps fuel s).executed < steps) := by
  induction fuel generalizing s with
  | zero =>
    simp only [execLoop]
    omega
  | succ fuel ih =>
    rw [execLoop]
    split
    · next h => exact ih _ (by rw [execStep_executed]; omega)
    · next h => exact h

/-- C1: `execute` interprets each symbol as specified: `>`/`<` move the
data pointer with wraparound modulo the tape size; `+`/`-` increment or
decrement the current cell with signed-byte wraparound; `[` jumps to the
matched `]` position (then still advances by 1, landing just past it) iff
the current cell is exactly zero; `]` jumps back to the matched `[` iff
the current cell is non-zero; an unmatched bracket performs no jump; and
every other character is a no-op that still consumes one step.  (The last
conjunct shows the loop applies exactly this step while running.) -/
theorem execute_symbol_semantics (program : List Char) (size : Nat)
    (s : ExecState) (hip : s.instrPtr < program.length) :
    (program.getD s.instrPtr ' ' = '>' →
      execStep program (build_bracket_map program) size s =
        ⟨s.tape, (s.dataPtr + 1) % (size : Int), s.instrPtr + 1, s.executed + 1⟩) ∧
    (program.getD s.instrPtr ' ' = '<' →
      execStep program (build_bracket_map program) size s =
        ⟨s.tape, (s.dataPtr - 1) % (size : Int), s.instrPtr + 1, s.executed + 1⟩) ∧
    (program.getD s.instrPtr ' ' = '+' →
      execStep program (build_bracket_map program) size s =
        ⟨s.tape.set s.dataPtr.toNat (wrap_byte (s.tape.getD s.dataPtr.toNat 0 + 1)),
          s.dataPtr, s.instrPtr + 1, s.executed + 1⟩) ∧
    (program.getD s.instrPtr ' ' = '-' →
      execStep program (build_bracket_map program) size s =
        ⟨s.tape.set s.dataPtr.toNat (wrap_byte (s.tape.getD s.dataPtr.toNat 0 - 1)),
          s.dataPtr, s.instrPtr + 1, s.executed + 1⟩) ∧
    (∀ m, program.getD s.instrPtr ' ' = '[' → s.tape.getD s.dataPtr.toNat 0 = 0 →
      bmLookup (build_bracket_map program) s.instrPtr = some m →
      execStep program (build_bracket_map program) size s =
        ⟨s.tape, s.dataPtr, m + 1, s.executed + 1⟩) ∧
    (program.getD s.instrPtr ' ' = '[' →
      (s.tape.getD s.dataPtr.toNat 0 ≠ 0 ∨
        bmLookup (build_bracket_map program) s.instrPtr = none) →
      execStep program (build_bracket_map program) size s =
        ⟨s.tape, s.dataPtr, s.instrPtr + 1, s.executed + 1⟩) ∧
    (∀ m, program.getD s.instrPtr ' ' = ']' → s.tape.getD s.dataPtr.toNat 0 ≠ 0 →
      bmLookup (build_bracket_map program) s.instrPtr = some m →
      execStep program (build_bracket_map program) size s =
        ⟨s.tape, s.dataPtr, m + 1, s.executed + 1⟩) ∧
    (program.getD s.instrPtr ' ' = ']' →
      (s.tape.getD s.dataPtr.toNat 0 = 0 ∨
        bmLookup (build_bracket_map program) s.instrPtr = none) →
      execStep program (build_bracket_map program) size s =
        ⟨s.tape, s.dataPtr, s.instrPtr + 1, s.executed + 1⟩) ∧
    (program.getD s.instrPtr ' ' ≠ '>' → program.getD s.instrPtr ' ' ≠ '<' →
      program.getD s.instrPtr ' ' ≠ '+' → program.getD s.instrPtr ' ' ≠ '-' →
      program.getD s.instrPtr ' ' ≠ '[' → program.getD s.instrPtr ' ' ≠ ']' →
      execStep program (build_bracket_map program) size s =
        ⟨s.tape, s.dataPtr, s.instrPtr + 1, s.executed + 1⟩) ∧
    (∀ steps fuel, s.executed < steps →
      execLoop program (build_bracket_map program) size steps (fuel + 1) s =
        execLoop program (build_bracket_map program) size steps fuel
          (execStep program (build_bracket_map program) size s)) := by
  refine ⟨?_, ?_, ?_, ?_, ?_, ?_, ?_, ?_, ?_, ?_⟩
  · intro h; simp_all [execStep]
  · intro h; simp_all [execStep]
  · intro h; simp_all [execStep]
  · intro h; simp_all [execStep]
  · intro m h h0 hm; simp_all [execStep]
  · intro h hor
    rcases hor with h0 | hm
    · simp_all [execStep]
    · by_cases h0 : s.tape.getD s.dataPtr.toNat 0 = 0 <;> simp_all [execStep]
  · intro m h h0 hm; simp_all [execStep]
  · intro h hor
    rcases hor with h0 | hm
    · simp_all [execStep]
    · by_cases h0 : s.tape.getD s.dataPtr.toNat 0 = 0 <;> simp_all [execStep]
  · intro h1 h2 h3 h4 h5 h6; simp_all [execStep]
  · intro steps fuel hst
    rw [execLoop]
    simp [hip, hst]

/-- Witness for `execute_symbol_semantics` at a concrete program and
state. -/
theorem execute_symbol_semantics_witness :
    (0 : Nat) < ([ '>' ] : List Char).length ∧
      (([ '>' ] : List Char).getD 0 ' ' = '>' →
        execStep ['>'] (build_bracket_map ['>']) 4 ⟨[1, 2, 3, 4], 0, 0, 0⟩ =
          ⟨[1, 2, 3, 4], (0 + 1) % (4 : Int), 0 + 1, 0 + 1⟩) :=
  ⟨by decide, (execute_symbol_semantics ['>'] 4 ⟨[1, 2, 3, 4], 0, 0, 0⟩ (by decide)).1⟩

/-- C2: for every program, step budget, positive tape size and arbitrary
initial values, `execute` returns exactly `size` cells, the invariant
"tape length is `size`, every cell is in `[-128, 127]`, and the data
pointer is a valid index in `[0, size)`" holds of the initial state and is
preserved by every execution step, and every returned cell is a signed
byte. -/
theorem execute_tape_invariants (program : List Char) (steps size : Nat)
    (initial : List Int) (hsize : 0 < size) :
    (∀ s, ExecInv size s →
      ExecInv size (execStep program (build_bracket_map program) size s)) ∧
    ExecInv size ⟨initTape size initial, 0, 0, 0⟩ ∧
    (execute program steps size initial).length = size ∧
    (∀ v ∈ execute program steps size initial, -128 ≤ v ∧ v ≤ 127) := by
  have hinit : ExecInv size (⟨initTape size initial, 0, 0, 0⟩ : ExecState) :=
    ⟨initTape_length size initial, initTape_range size initial, le_refl 0,
      by show (0 : Int) < (size : Int); exact_mod_cast hsize⟩
  have hfin : ExecInv size (execLoop program (build_bracket_map program) size
      steps steps ⟨initTape size initial, 0, 0, 0⟩) :=
    execLoop_inv program (build_bracket_map program) size hsize steps steps _ hinit
  exact ⟨fun s hs => execStep_inv program (build_bracket_map program) size hsize s hs,
    hinit, hfin.1, hfin.2.1⟩

/-- Witness for `execute_tape_invariants`: a malformed program with an
over-long, out-of-range initial tape still yields a 2-cell signed-byte
tape. -/
theorem execute_tape_invariants_witness :
    (0 : Nat) < 2 ∧
      (execute ['+', 'x', ']', '['] 9 2 [300, -300, 7]).length = 2 ∧
      (∀ v ∈ execute ['+', 'x', ']', '['] 9 2 [300, -300, 7], -128 ≤ v ∧ v ≤ 127) :=
  ⟨by decide,
    (execute_tape_invariants ['+', 'x', ']', '['] 9 2 [300, -300, 7] (by decide)).2.2.1,
    (execute_tape_invariants ['+', 'x', ']', '['] 9 2 [300, -300, 7] (by decide)).2.2.2⟩

/-- C3: `execute` is a total function (defined for every program including
malformed ones, every budget, positive size and initial values — the
embedding returns a value, never an error), the loop runs one more
iteration exactly while the instruction pointer is inside the program and
the executed count is below `steps`, the executed-instruction count never
exceeds `steps`, and the final state of `execute`'s loop fails the guard:
the instruction pointer reached the end of the program or the executed
count reached exactly `steps`, whichever came first. -/
theorem execute_terminates (program : List Char) (steps size : Nat)
    (initial : List Int) :
    (∀ fuel (s : ExecState),
      execLoop program (build_bracket_map program) size steps (fuel + 1) s =
        if s.instrPtr < program.length ∧ s.executed < steps then
          execLoop program (build_bracket_map program) size steps fuel
            (execStep program (build_bracket_map program) size s)
        else s) ∧
    (∀ fuel (s : ExecState), s.executed ≤ steps →
      (execLoop program (build_bracket_map program) size steps fuel s).executed ≤ steps) ∧
    ((execLoop program (build_bracket_map program) size steps steps
        ⟨initTape size initial, 0, 0, 0⟩).executed ≤ steps ∧
      (program.length ≤ (execLoop program (build_bracket_map program) size steps steps
          ⟨initTape size initial, 0, 0, 0⟩).instrPtr ∨
        (execLoop program (build_bracket_map program) size steps steps
          ⟨initTape size initial, 0, 0, 0⟩).executed = steps)) := by
  refine ⟨fun fuel s => by rw [execLoop], ?_, ?_, ?_⟩
  · exact fun fuel s h => execLoop_executed_le program _ size steps fuel s h
  · exact execLoop_executed_le program _ size steps steps _ (Nat.zero_le steps)
  · have h1 := execLoop_halted program (build_bracket_map program) size steps steps
      ⟨initTape size initial, 0, 0, 0⟩ (by omega)
    have h2 := execLoop_executed_le program (build_bracket_map program) size steps steps
      ⟨initTape size initial, 0, 0, 0⟩ (Nat.zero_le steps)
    omega

theorem randint_bounds (r : Rng) (low high : Int) (h : low ≤ high) :
    low ≤ (Rng.randint r low high).1 ∧ (Rng.randint r low high).1 ≤ high := by
  unfold Rng.randint Rng.next
  have hpos : (0 : Int) < high - low + 1 := by omega
  have h0 : 0 ≤ ((r.stream r.idx : Nat) : Int) % (high - low + 1) :=
    Int.emod_nonneg _ (by omega)
  have h1 : ((r.stream r.idx : Nat) : Int) % (high - low + 1) < high - low + 1 :=
    Int.emod_lt_of_pos _ hpos
  constructor <;> simp <;> omega

/-- C8 (amended): the generated tape has length `max 2 size` for the
two-operand task and `max 3 size` for the three-operand task (hence
exactly `size` whenever `size` is at least the arity, but longer than
`size` for smaller tape sizes), and with the default `[min, max]` bounds
the operands are non-negative and their sum is at most 127. -/
theorem generate_input_spec (size : Nat) (r : Rng) :
    (AdditionTask.generate_input size (-64) 63 r).1.length = max 2 size ∧
    (TripleAdditionTask.generate_input size (-42) 42 r).1.length = max 3 size ∧
    (∃ a b r2, AdditionTask.generate_input size (-64) 63 r =
        ([a, b] ++ List.replicate (size - 2) 0, r2) ∧
      0 ≤ a ∧ a ≤ 63 ∧ 0 ≤ b ∧ b ≤ 63 ∧ a + b ≤ 127) ∧
    (∃ a b c r3, TripleAdditionTask.generate_input size (-42) 42 r =
        ([a, b, c] ++ List.replicate (size - 3) 0, r3) ∧
      0 ≤ a ∧ a ≤ 42 ∧ 0 ≤ b ∧ b ≤ 42 ∧ 0 ≤ c ∧ c ≤ 42 ∧ a + b + c ≤ 127) := by
  refine ⟨?_, ?_, ?_, ?_⟩
  · simp [AdditionTask.generate_input]
    omega
  · simp [TripleAdditionTask.generate_input]
    omega
  · unfold AdditionTask.generate_input
    have e1 : max (0 : Int) (-64) = 0 := by norm_num
    rw [e1]
    dsimp only
    have e2 : max (0 : Int) 63 = 63 := by norm_num
    rw [e2]
    have h1 := randint_bounds r 0 63 (by norm_num)
    have h2 := randint_bounds (Rng.randint r 0 63).2 0 63 (by norm_num)
    exact ⟨_, _, _, rfl, h1.1, h1.2, h2.1, h2.2, by omega⟩
  · unfold TripleAdditionTask.generate_input
    have e1 : max (0 : Int) (-42) = 0 := by norm_num
    rw [e1]
    dsimp only
    have e2 : max (0 : Int) 42 = 42 := by norm_num
    rw [e2]
    have h1 := randint_bounds r 0 42 (by norm_num)
    have h2 := randint_bounds (Rng.randint r 0 42).2 0 42 (by norm_num)
    have h3 := randint_bounds (Rng.randint (Rng.randint r 0 42).2 0 42).2 0 42
      (by norm_num)
    exact ⟨_, _, _, _, rfl, h1.1, h1.2, h2.1, h2.2, h3.1, h3.2, by omega⟩

/-- The original C8 fails on the code: with tape size 1 (a positive size)
the two-operand generator returns a tape of length 2, not 1. -/
theorem generate_input_length_counterexample :
    (AdditionTask.generate_input 1 (-64) 63 ⟨fun _ => 0, 0⟩).1.length = 2 ∧
    (1 : Nat) ≠ 2 := by
  constructor
  · rfl
  · decide

theorem int_min?_spec {l : List Int} {m : Int} (h : l.min? = some m) :
    m ∈ l ∧ ∀ b ∈ l, m ≤ b := by
  refine ⟨List.min?_mem (fun a b => min_choice a b) h, ?_⟩
  intro b hb
  exact (List.le_min?_iff (fun a b c => le_min_iff) h).mp (le_refl m) b hb

theorem choice_of_ne_nil {α : Type} (r : Rng) (l : List α) (h : l ≠ []) :
    ∃ x r', Rng.choice r l = some (x, r') ∧ x ∈ l := by
  match l with
  | [] => exact absurd rfl h
  | x :: xs =>
    refine ⟨_, _, rfl, ?_⟩
    have hlt : (r.stream r.idx % (x :: xs).length) < (x :: xs).length :=
      Nat.mod_lt _ (by simp)
    rw [List.getD_eq_getElem _ _ hlt]
    exact List.getElem_mem hlt

theorem selectWeights_length (fitnesses : List Int) (m : Int) :
    (selectWeights fitnesses m).length = fitnesses.length := by
  unfold selectWeights
  split <;> simp

theorem selectWeights_nonneg (fitnesses : List Int) (m : Int)
    (hmin : fitnesses.min? = some m) :
    ∀ x ∈ selectWeights fitnesses m, 0 ≤ x := by
  intro x hx
  have hle := (int_min?_spec hmin).2
  unfold selectWeights at hx
  split at hx
  · obtain ⟨f, hf, rfl⟩ := List.mem_map.mp hx
    have := hle f hf
    omega
  · have := hle x hx
    omega

theorem total_pos_of_sum_ne_zero (w : List Int) (hpos : ∀ x ∈ w, 0 ≤ x)
    (hs : w.sum ≠ 0) : 0 < (w.map Int.toNat).sum := by
  rcases Nat.eq_zero_or_pos ((w.map Int.toNat).sum) with h0 | h
  · exfalso
    apply hs
    have hall := List.sum_eq_zero_iff.mp h0
    apply List.sum_eq_zero
    intro x hx
    have h1 := hall x.toNat (List.mem_map.mpr ⟨x, hx, rfl⟩)
    have h2 := hpos x hx
    omega
  · exact h

theorem pickIdx_lt_length (w : List Int) :
    ∀ t, t < (w.map Int.toNat).sum → pickIdx w t < w.length := by
  induction w with
  | nil => intro t ht; simp at ht
  | cons wi ws ih =>
    intro t ht
    simp only [pickIdx]
    split
    · simp
    · next hge =>
      have ht' : t - wi.toNat < (ws.map Int.toNat).sum := by
        simp at ht
        omega
      have := ih (t - wi.toNat) ht'
      simp
      omega

/-- `pickIdx` inverts the cumulative weights: the draw `t` selects index
`i` exactly when `t` falls in the half-open interval between the
cumulative weight before `i` and the one through `i`. -/
theorem pickIdx_eq_iff (w : List Int) :
    ∀ t i, t < (w.map Int.toNat).sum →
      (pickIdx w t = i ↔
        ((w.take i).map Int.toNat).sum ≤ t ∧
          t < ((w.take (i + 1)).map Int.toNat).sum) := by
  induction w with
  | nil => intro t i ht; simp at ht
  | cons wi ws ih =>
    intro t i ht
    simp only [pickIdx]
    by_cases h : t < wi.toNat
    · cases i with
      | zero => simp [h]
      | succ j =>
        simp only [if_pos h, List.take_succ_cons, List.map_cons, List.sum_cons]
        constructor
        · intro h0; exact absurd h0 (by omega)
        · intro hc; omega
    · cases i with
      | zero =>
        simp only [if_neg h, List.take_succ_cons, List.take_zero, List.map_cons,
          List.map_nil, List.sum_cons, List.sum_nil]
        constructor
        · intro h0; exact absurd h0 (by omega)
        · intro hc; omega
      | succ j =>
        have ht' : t - wi.toNat < (ws.map Int.toNat).sum := by
          simp at ht
          omega
        have hiff := ih (t - wi.toNat) j ht'
        simp only [if_neg h, List.take_succ_cons, List.map_cons, List.sum_cons]
        constructor
        · intro h1
          have : pickIdx ws (t - wi.toNat) = j := by omega
          have := hiff.mp this
          omega
        · intro hc
          have : ((ws.take j).map Int.toNat).sum ≤ t - wi.toNat ∧
              t - wi.toNat < ((ws.take (j + 1)).map Int.toNat).sum := by omega
          have := hiff.mpr this
          omega

theorem takeWeights_succ (w : List Int) (i : Nat) (hi : i < w.length) :
    ((w.take (i + 1)).map Int.toNat).sum =
      ((w.take i).map Int.toNat).sum + (w.getD i 0).toNat := by
  rw [List.getD_eq_getElem w 0 hi, List.map_take, List.map_take, List.take_succ]
  have hm : i < (w.map Int.toNat).length := by simpa using hi
  rw [List.getElem?_eq_getElem hm]
  simp

theorem takeWeights_le (w : List Int) (i : Nat) :
    ((w.take i).map Int.toNat).sum ≤ (w.map Int.toNat).sum := by
  rw [List.map_take]
  conv_rhs => rw [← List.take_append_drop i (w.map Int.toNat)]
  rw [List.sum_append]
  exact Nat.le_add_right _ _

/-- Proportionality of the weighted draw: index `i` is selected for
exactly `wᵢ` of the equiprobable draw values in `[0, total)`. -/
theorem pickIdx_card (w : List Int) (i : Nat) (hi : i < w.length) :
    ((Finset.range ((w.map Int.toNat).sum)).filter
      (fun t => pickIdx w t = i)).card = (w.getD i 0).toNat := by
  have hAB := takeWeights_succ w i hi
  have hB := takeWeights_le w (i + 1)
  have key : (Finset.range ((w.map Int.toNat).sum)).filter (fun t => pickIdx w t = i)
      = Finset.Ico (((w.take i).map Int.toNat).sum)
          (((w.take (i + 1)).map Int.toNat).sum) := by
    ext t
    simp only [Finset.mem_filter, Finset.mem_range, Finset.mem_Ico]
    constructor
    · rintro ⟨ht, hp⟩
      exact (pickIdx_eq_iff w t i ht).mp hp
    · rintro ⟨h1, h2⟩
      have ht : t < (w.map Int.toNat).sum := lt_of_lt_of_le h2 hB
      exact ⟨ht, (pickIdx_eq_iff w t i ht).mpr ⟨h1, h2⟩⟩
  rw [key, Nat.card_Ico]
  omega

/-- C4 (amended): for parallel (programs, scores) lists, `_select`
behaves as specified on every non-empty population — empty scores fall
back to uniform `rng.choice`, the shift to make the minimum 0 is applied
exactly when the minimum is negative (and then 0 is a weight and all
weights are non-negative, the spacing being preserved by the uniform
shift), a zero shifted-weight sum falls back to uniform choice, a
non-zero sum draws through the weighted choice where each index is
selected for exactly its shifted weight's worth of the equiprobable draw
values, and on a non-empty population selection never raises.  (On the
empty parallel pair it does raise: `select_empty_raises`.) -/
theorem select_spec (population : List (List Char)) (fitnesses : List Int)
    (r : Rng) (hlen : population.length = fitnesses.length) :
    (fitnesses = [] → select population fitnesses r = Rng.choice r population) ∧
    (∀ m, fitnesses.min? = some m → 0 ≤ m → selectWeights fitnesses m = fitnesses) ∧
    (∀ m, fitnesses.min? = some m → m < 0 →
      selectWeights fitnesses m = fitnesses.map (· - m) ∧
      (0 : Int) ∈ selectWeights fitnesses m ∧
      ∀ x ∈ selectWeights fitnesses m, 0 ≤ x) ∧
    (∀ m, fitnesses.min? = some m → (selectWeights fitnesses m).sum = 0 →
      select population fitnesses r = Rng.choice r population) ∧
    (∀ m, fitnesses.min? = some m → (selectWeights fitnesses m).sum ≠ 0 →
      select population fitnesses r =
        Rng.choicesWeighted r population (selectWeights fitnesses m)) ∧
    (∀ m, fitnesses.min? = some m → ∀ i, i < fitnesses.length →
      ((Finset.range (((selectWeights fitnesses m).map Int.toNat).sum)).filter
        (fun t => pickIdx (selectWeights fitnesses m) t = i)).card =
        ((selectWeights fitnesses m).getD i 0).toNat) ∧
    (population ≠ [] → ∃ p r', select population fitnesses r = some (p, r')) := by
  refine ⟨?_, ?_, ?_, ?_, ?_, ?_, ?_⟩
  · intro h
    subst h
    rfl
  · intro m hm h0
    unfold selectWeights
    rw [if_neg (by omega)]
  · intro m hm hneg
    have hmem := (int_min?_spec hm).1
    have hle := (int_min?_spec hm).2
    unfold selectWeights
    rw [if_pos hneg]
    refine ⟨rfl, ?_, ?_⟩
    · exact List.mem_map.mpr ⟨m, hmem, by omega⟩
    · intro x hx
      obtain ⟨f, hf, rfl⟩ := List.mem_map.mp hx
      have := hle f hf
      omega
  · intro m hm hsum
    simp only [select, hm]
    rw [if_pos hsum]
  · intro m hm hsum
    simp only [select, hm]
    rw [if_neg hsum]
  · intro m hm i hi
    exact pickIdx_card _ i (by rw [selectWeights_length]; exact hi)
  · intro hpop
    rcases hmin : fitnesses.min? with _ | m
    · simp only [select, hmin]
      obtain ⟨x, r', heq, _⟩ := choice_of_ne_nil r population hpop
      exact ⟨x, r', heq⟩
    · simp only [select, hmin]
      by_cases hz : (selectWeights fitnesses m).sum = 0
      · rw [if_pos hz]
        obtain ⟨x, r', heq, _⟩ := choice_of_ne_nil r population hpop
        exact ⟨x, r', heq⟩
      · rw [if_neg hz]
        have hnn := selectWeights_nonneg fitnesses m hmin
        have htot := total_pos_of_sum_ne_zero _ hnn hz
        simp only [Rng.choicesWeighted]
        rw [if_neg (by omega)]
        have hidx : pickIdx (selectWeights fitnesses m)
            (r.next.1 % ((selectWeights fitnesses m).map Int.toNat).sum) <
            population.length := by
          rw [hlen, ← selectWeights_length fitnesses m]
          exact pickIdx_lt_length _ _ (Nat.mod_lt _ htot)
        rw [List.get?_eq_getElem? , List.getElem?_eq_getElem hidx]
        exact ⟨_, _, rfl⟩

/-- C4's original form fails on the code: on the empty parallel
(programs, scores) pair, `_select` reaches `rng.choice([])`, which raises
`IndexError` (modelled by `none`) rather than selecting anything. -/
theorem select_empty_raises :
    select [] [] ⟨fun _ => 0, 0⟩ = none := rfl

/-- Witness for `select_spec` at concrete parallel lists. -/
theorem select_spec_witness :
    ([['+'], ['-']] : List (List Char)).length = ([-2, 2] : List Int).length ∧
    (([['+'], ['-']] : List (List Char)) ≠ [] →
      ∃ p r', select [['+'], ['-']] [-2, 2] ⟨fun _ => 0, 0⟩ = some (p, r')) :=
  ⟨by decide,
    (select_spec [['+'], ['-']] [-2, 2] ⟨fun _ => 0, 0⟩ (by decide)).2.2.2.2.2.2⟩

/-- C5: `_mutate` scans the current mutable character sequence left to
right.  At each position, when the `rng.random() < rate` draw succeeds it
chooses among substitute / delete / insert-before; substitution rewrites
the position and advances by one; deletion removes the position and does
not advance (the symbol that slides into the current index — formerly the
next one — is itself scanned in the same pass); insertion places the new
symbol at the position, shifts the original one to the next index, and
advances past both; a failed draw advances by one; and after the full
pass an independent `rng.random() < rate` draw appends one random
alphabet symbol. -/
theorem mutate_scan_semantics (rate : ℚ) (fuel : Nat) (chars : List Char)
    (i : Nat) (r : Rng) :
    (¬ i < chars.length → mutateLoop rate (fuel + 1) chars i r = (chars, r)) ∧
    (∀ x r1, Rng.random r = (x, r1) → i < chars.length →
      (¬ x < rate →
        mutateLoop rate (fuel + 1) chars i r = mutateLoop rate fuel chars (i + 1) r1) ∧
      (∀ op r2, Rng.choiceNE r1 [MutOp.sub, MutOp.del, MutOp.ins] MutOp.sub = (op, r2) →
        x < rate →
        (∀ c r3, Rng.choiceNE r2 INSTRUCTIONS '>' = (c, r3) →
          (op = MutOp.sub →
            mutateLoop rate (fuel + 1) chars i r =
              mutateLoop rate fuel (chars.set i c) (i + 1) r3) ∧
          (op = MutOp.ins →
            mutateLoop rate (fuel + 1) chars i r =
              mutateLoop rate fuel (chars.insertIdx i c) (i + 2) r3 ∧
            (chars.insertIdx i c).getD i ' ' = c ∧
            (chars.insertIdx i c).getD (i + 1) ' ' = chars.getD i ' ')) ∧
        (op = MutOp.del →
          mutateLoop rate (fuel + 1) chars i r =
            mutateLoop rate fuel (chars.eraseIdx i) i r2 ∧
          (chars.eraseIdx i).length = chars.length - 1 ∧
          ∀ j, i ≤ j → j + 1 < chars.length →
            (chars.eraseIdx i).getD j ' ' = chars.getD (j + 1) ' '))) ∧
    (∀ chars1 r1 x r2, mutateLoop rate chars.length chars 0 r = (chars1, r1) →
      Rng.random r1 = (x, r2) →
      (x < rate → ∀ c r3, Rng.choiceNE r2 INSTRUCTIONS '>' = (c, r3) →
        mutate chars r rate = (chars1 ++ [c], r3)) ∧
      (¬ x < rate → mutate chars r rate = (chars1, r2))) := by
  refine ⟨?_, ?_, ?_⟩
  · intro h
    simp only [mutateLoop]
    rw [if_neg h]
  · intro x r1 hx hi
    constructor
    · intro hrate
      simp only [mutateLoop, hx]
      rw [if_pos hi, if_neg hrate]
    · intro op r2 hop hrate
      constructor
      · intro c r3 hc
        constructor
        · intro hsub
          subst hsub
          simp only [mutateLoop, hx, hop, hc]
          rw [if_pos hi, if_pos hrate]
        · intro hins
          subst hins
          refine ⟨?_, ?_, ?_⟩
          · simp only [mutateLoop, hx, hop, hc]
            rw [if_pos hi, if_pos hrate]
          · have hle : i ≤ chars.length := le_of_lt hi
            have hlt : i < (chars.insertIdx i c).length := by
              rw [List.length_insertIdx _ _ hle]
              omega
            rw [List.getD_eq_getElem _ _ hlt]
            exact List.getElem_insertIdx_self chars c i hle
          · have hlt : i + 1 < (chars.insertIdx i c).length := by
              rw [List.length_insertIdx _ _ (le_of_lt hi)]
              omega
            rw [List.getD_eq_getElem _ _ hlt, List.getD_eq_getElem _ _ hi]
            have := List.getElem_insertIdx_add_succ chars c i 0 (by omega)
            simpa using this
      · intro hdel
        subst hdel
        refine ⟨?_, List.length_eraseIdx_of_lt hi, ?_⟩
        · simp only [mutateLoop, hx, hop]
          rw [if_pos hi, if_pos hrate]
        · intro j hij hj
          have hjl : j < (chars.eraseIdx i).length := by
            rw [List.length_eraseIdx_of_lt hi]
            omega
          rw [List.getD_eq_getElem _ _ hjl, List.getD_eq_getElem _ _ hj]
          rw [List.getElem_eraseIdx]
          rw [dif_neg (by omega)]
  · intro chars1 r1 x r2 hloop hx
    constructor
    · intro hrate c r3 hc
      simp only [mutate, hloop, hx, hc]
      rw [if_pos hrate]
    · intro hrate
      simp only [mutate, hloop, hx]
      rw [if_neg hrate]

theorem bmRunAux_enumFrom (l : List Char) :
    ∀ (n : Nat) (st), List.foldl bmStep st (List.enumFrom n l) = bmRunAux l n st := by
  induction l with
  | nil => intro n st; rfl
  | cons c cs ih =>
    intro n st
    simp only [List.enumFrom, List.foldl_cons, bmRunAux]
    exact ih (n + 1) (bmStep st (n, c))

theorem build_bracket_map_eq (program : List Char) :
    build_bracket_map program = (bmRunAux program 0 ([], [])).2 := by
  unfold build_bracket_map bmRun
  rw [List.take_length]
  rw [show List.enum program = List.enumFrom 0 program from rfl]
  rw [bmRunAux_enumFrom]

theorem bmRunAux_append (l1 l2 : List Char) :
    ∀ (n : Nat) (st), bmRunAux (l1 ++ l2) n st =
      bmRunAux l2 (n + l1.length) (bmRunAux l1 n st) := by
  induction l1 with
  | nil => intro n st; simp [bmRunAux]
  | cons c cs ih =>
    intro n st
    simp only [List.cons_append, List.append_eq, bmRunAux, List.length_cons]
    rw [ih]
    rw [show n + (cs.length + 1) = n + 1 + cs.length from by omega]

theorem bmStep_open (stack : List Nat) (pairs : List (Nat × Nat)) (n : Nat) :
    bmStep (stack, pairs) (n, '[') = (n :: stack, pairs) := rfl

theorem bmStep_close_nil (pairs : List (Nat × Nat)) (n : Nat) :
    bmStep ([], pairs) (n, ']') = ([], pairs) := rfl

theorem bmStep_close_cons (o : Nat) (rest : List Nat)
    (pairs : List (Nat × Nat)) (n : Nat) :
    bmStep (o :: rest, pairs) (n, ']') = (rest, (n, o) :: (o, n) :: pairs) := rfl

theorem bmStep_other (stack : List Nat) (pairs : List (Nat × Nat)) (n : Nat)
    (c : Char) (hc1 : c ≠ '[') (hc2 : c ≠ ']') :
    bmStep (stack, pairs) (n, c) = (stack, pairs) := by
  simp [bmStep, hc1, hc2]

theorem bmStep_inv (program : List Char) (n : Nat) (c : Char)
    (hchar : program.getD n ' ' = c) (st : List Nat × List (Nat × Nat))
    (h : BMInv program n st) : BMInv program (n + 1) (bmStep st (n, c)) := by
  obtain ⟨stack, pairs⟩ := st
  obtain ⟨h1, h2, h3, h4, h5, h6, h7⟩ := h
  by_cases hob : c = '['
  · subst hob
    rw [bmStep_open]
    refine ⟨?_, ?_, ?_, h4, h5, ?_, h7⟩
    · intro s hs
      rcases List.mem_cons.mp hs with rfl | hs
      · exact ⟨Nat.lt_succ_self s, hchar⟩
      · exact ⟨Nat.lt_succ_of_lt (h1 s hs).1, (h1 s hs).2⟩
    · exact List.Pairwise.cons (fun s hs => (h1 s hs).1) h2
    · intro e he
      exact ⟨Nat.lt_succ_of_lt (h3 e he).1, Nat.lt_succ_of_lt (h3 e he).2⟩
    · intro s hs e he
      rcases List.mem_cons.mp hs with rfl | hs
      · exact Nat.ne_of_lt (h3 e he).1
      · exact h6 s hs e he
  · by_cases hcb : c = ']'
    · subst hcb
      cases stack with
      | nil =>
        rw [bmStep_close_nil]
        refine ⟨?_, ?_, ?_, h4, h5, ?_, h7⟩
        · intro s hs
          simp at hs
        · simp
        · intro e he
          exact ⟨Nat.lt_succ_of_lt (h3 e he).1, Nat.lt_succ_of_lt (h3 e he).2⟩
        · intro s hs
          simp at hs
      | cons o rest =>
        rw [bmStep_close_cons]
        have ho := h1 o (List.mem_cons_self o rest)
        refine ⟨?_, ?_, ?_, ?_, ?_, ?_, ?_⟩
        · intro s hs
          have := h1 s (List.mem_cons_of_mem o hs)
          exact ⟨Nat.lt_succ_of_lt this.1, this.2⟩
        · exact h2.of_cons
        · intro e he
          rcases List.mem_cons.mp he with rfl | he
          · exact ⟨Nat.lt_succ_self n, Nat.lt_succ_of_lt ho.1⟩
          rcases List.mem_cons.mp he with rfl | he
          · exact ⟨Nat.lt_succ_of_lt ho.1, Nat.lt_succ_self n⟩
          · exact ⟨Nat.lt_succ_of_lt (h3 e he).1, Nat.lt_succ_of_lt (h3 e he).2⟩
        · intro e he
          rcases List.mem_cons.mp he with rfl | he
          · exact List.mem_cons_of_mem _ (List.mem_cons_self _ _)
          rcases List.mem_cons.mp he with rfl | he
          · exact List.mem_cons_self _ _
          · exact List.mem_cons_of_mem _ (List.mem_cons_of_mem _ (h4 e he))
        · simp only [List.map_cons, List.nodup_cons]
          refine ⟨?_, ?_, h5⟩
          · simp only [List.mem_cons, List.mem_map]
            rintro (h | ⟨e, he, hfst⟩)
            · omega
            · have := (h3 e he).1
              omega
          · simp only [List.mem_map]
            rintro ⟨e, he, hfst⟩
            exact h6 o (List.mem_cons_self o rest) e he hfst
        · intro s hs e he
          have hslt : s < n := (h1 s (List.mem_cons_of_mem o hs)).1
          have hos : o > s := (List.pairwise_cons.mp h2).1 s hs
          rcases List.mem_cons.mp he with rfl | he
          · simp only []
            omega
          rcases List.mem_cons.mp he with rfl | he
          · simp only []
            omega
          · exact h6 s (List.mem_cons_of_mem o hs) e he
        · intro e he
          rcases List.mem_cons.mp he with rfl | he
          · exact ⟨by simp only []; omega, Or.inr ⟨hchar, ho.2, ho.1⟩⟩
          rcases List.mem_cons.mp he with rfl | he
          · exact ⟨by simp only []; omega, Or.inl ⟨ho.2, hchar, ho.1⟩⟩
          · exact h7 e he
    · rw [bmStep_other stack pairs n c hob hcb]
      refine ⟨?_, h2, ?_, h4, h5, h6, h7⟩
      · intro s hs
        exact ⟨Nat.lt_succ_of_lt (h1 s hs).1, (h1 s hs).2⟩
      · intro e he
        exact ⟨Nat.lt_succ_of_lt (h3 e he).1, Nat.lt_succ_of_lt (h3 e he).2⟩

theorem bmState_zero (program : List Char) : bmState program 0 = ([], []) := rfl

theorem bmState_succ (program : List Char) (p : Nat) (hp : p < program.length) :
    bmState program (p + 1) =
      bmStep (bmState program p) (p, program.getD p ' ') := by
  unfold bmState
  rw [List.take_succ, List.getElem?_eq_getElem hp, Option.toList_some]
  rw [bmRunAux_append]
  have hlen : (program.take p).length = p := List.length_take_of_le (le_of_lt hp)
  rw [hlen]
  rw [List.getD_eq_getElem _ _ hp, Nat.zero_add]
  rfl

theorem bmState_inv (program : List Char) :
    ∀ p, p ≤ program.length → BMInv program p (bmState program p) := by
  intro p
  induction p with
  | zero =>
    intro _
    rw [bmState_zero]
    exact ⟨by simp, by simp, by simp, by simp, by simp, by simp, by simp⟩
  | succ q ih =>
    intro hq
    have hqlt : q < program.length := by omega
    rw [bmState_succ program q hqlt]
    exact bmStep_inv program q _ rfl _ (ih (le_of_lt hqlt))

theorem bmState_length (program : List Char) :
    bmState program program.length = bmRunAux program 0 ([], []) := by
  unfold bmState
  rw [List.take_length]

theorem bmLookup_eq_some_iff (pairs : List (Nat × Nat))
    (hnodup : (pairs.map Prod.fst).Nodup) (p q : Nat) :
    bmLookup pairs p = some q ↔ (p, q) ∈ pairs := by
  induction pairs with
  | nil => simp [bmLookup]
  | cons e es ih =>
    rw [List.map_cons] at hnodup
    have hnd := List.nodup_cons.mp hnodup
    by_cases he : e.1 = p
    · have hfind : bmLookup (e :: es) p = some e.2 := by
        simp only [bmLookup]
        rw [List.find?_cons_of_pos _ (by simp [he])]
        rfl
      rw [hfind]
      constructor
      · intro h
        have hq : e.2 = q := by simpa using h
        have hep : e = (p, q) := by
          obtain ⟨e1, e2⟩ := e
          simp only [] at he hq
          rw [he, hq]
        rw [← hep]
        exact List.mem_cons_self _ _
      · intro hmem
        rcases List.mem_cons.mp hmem with hh | hmem
        · rw [← hh]
        · exfalso
          apply hnd.1
          rw [he]
          exact List.mem_map.mpr ⟨(p, q), hmem, rfl⟩
    · have hfind : bmLookup (e :: es) p = bmLookup es p := by
        simp only [bmLookup]
        rw [List.find?_cons_of_neg _ (by simp [he])]
      rw [hfind, ih hnd.2]
      constructor
      · exact fun h => List.mem_cons_of_mem _ h
      · intro hmem
        rcases List.mem_cons.mp hmem with hh | hmem
        · exact absurd (congrArg Prod.fst hh.symm) he
        · exact hmem

theorem bmRunKeyFree (p : Nat) :
    ∀ (l : List Char) (n : Nat) (st : List Nat × List (Nat × Nat)),
      p < n → p ∉ st.1 → (∀ e ∈ st.2, e.1 ≠ p) →
      p ∉ (bmRunAux l n st).1 ∧ ∀ e ∈ (bmRunAux l n st).2, e.1 ≠ p := by
  intro l
  induction l with
  | nil => exact fun n st _ hs hk => ⟨hs, hk⟩
  | cons c cs ih =>
    intro n st hn hs hk
    obtain ⟨stack, pairs⟩ := st
    simp only [bmRunAux]
    by_cases hob : c = '['
    · subst hob
      rw [bmStep_open]
      apply ih (n + 1) _ (by omega)
      · intro hmem
        rcases List.mem_cons.mp hmem with h | hmem
        · omega
        · exact hs hmem
      · exact hk
    · by_cases hcb : c = ']'
      · subst hcb
        cases stack with
        | nil =>
          rw [bmStep_close_nil]
          exact ih (n + 1) _ (by omega) hs hk
        | cons o rest =>
          rw [bmStep_close_cons]
          apply ih (n + 1) _ (by omega)
          · intro hmem
            exact hs (List.mem_cons_of_mem o hmem)
          · intro e he
            rcases List.mem_cons.mp he with rfl | he
            · simp only []
              omega
            rcases List.mem_cons.mp he with rfl | he
            · intro hop
              simp only [] at hop
              exact hs (hop ▸ List.mem_cons_self o rest)
            · exact hk e he
      · rw [bmStep_other stack pairs n c hob hcb]
        exact ih (n + 1) _ (by omega) hs hk

/-- C9: the bracket map is computed by a pure function of the program
string alone before execution begins (last conjunct, definitionally: the
map `execute` consults is `build_bracket_map program`, independent of the
tape and the budget); its keys are pairwise distinct (every key present
has a unique partner); if `p` maps to `q` then `q` maps to `p`; every
mapped pair joins a `[` with a `]` to its right; a `[` left unmatched
(still on the stack after the pass) is not a key; and a `]` encountered
with an empty stack (an unmatched `]`) is not a key. -/
theorem bracket_map_spec (program : List Char) :
    ((build_bracket_map program).map Prod.fst).Nodup ∧
    (∀ p q, bmLookup (build_bracket_map program) p = some q →
      bmLookup (build_bracket_map program) q = some p) ∧
    (∀ p q, bmLookup (build_bracket_map program) p = some q → p ≠ q ∧
      ((program.getD p ' ' = '[' ∧ program.getD q ' ' = ']' ∧ p < q) ∨
       (program.getD p ' ' = ']' ∧ program.getD q ' ' = '[' ∧ q < p))) ∧
    (∀ p, p ∈ (bmRunAux program 0 ([], [])).1 →
      bmLookup (build_bracket_map program) p = none) ∧
    (∀ p, p < program.length → program.getD p ' ' = ']' →
      (bmState program p).1 = [] →
      bmLookup (build_bracket_map program) p = none) ∧
    (∀ steps size initial, execute program steps size initial =
      (execLoop program (build_bracket_map program) size steps steps
        ⟨initTape size initial, 0, 0, 0⟩).tape) := by
  have hfin : BMInv program program.length (bmRunAux program 0 ([], [])) := by
    rw [← bmState_length]
    exact bmState_inv program program.length (le_refl _)
  obtain ⟨h1, h2, h3, h4, h5, h6, h7⟩ := hfin
  have hM := build_bracket_map_eq program
  refine ⟨?_, ?_, ?_, ?_, ?_, ?_⟩
  · rw [hM]
    exact h5
  · intro p q h
    rw [hM] at h ⊢
    exact (bmLookup_eq_some_iff _ h5 q p).mpr (h4 _ ((bmLookup_eq_some_iff _ h5 p q).mp h))
  · intro p q h
    rw [hM] at h
    exact h7 _ ((bmLookup_eq_some_iff _ h5 p q).mp h)
  · intro p hp
    rw [hM]
    simp only [bmLookup]
    rw [List.find?_eq_none.mpr ?_]
    · rfl
    · intro e he
      simpa using h6 p hp e he
  · intro p hplen hchar hstack
    have hinvp := bmState_inv program p (le_of_lt hplen)
    have hchar' : program[p] = ']' := by
      rw [← List.getD_eq_getElem program ' ' hplen]
      exact hchar
    have hsplit : bmRunAux program 0 ([], []) =
        bmRunAux (program.drop p) p (bmState program p) := by
      conv_lhs => rw [← List.take_append_drop p program]
      rw [bmRunAux_append]
      rw [List.length_take_of_le (le_of_lt hplen), Nat.zero_add]
      rfl
    have hdrop : program.drop p = ']' :: program.drop (p + 1) := by
      rw [List.drop_eq_getElem_cons hplen, hchar']
    have hpair : bmState program p = ([], (bmState program p).2) := by
      rw [← hstack]
    have hstep : bmRunAux (program.drop p) p (bmState program p) =
        bmRunAux (program.drop (p + 1)) (p + 1)
          (([], (bmState program p).2) : List Nat × List (Nat × Nat)) := by
      rw [hdrop, hpair]
      simp only [bmRunAux]
      rw [bmStep_close_nil]
    have hkeys : ∀ e ∈ (bmState program p).2, e.1 ≠ p := by
      intro e he
      have := hinvp.2.2.1 e he
      omega
    have hfree := bmRunKeyFree p (program.drop (p + 1)) (p + 1)
      ([], (bmState program p).2) (Nat.lt_succ_self p) (by simp) hkeys
    rw [hM]
    simp only [bmLookup]
    rw [List.find?_eq_none.mpr ?_]
    · rfl
    · intro e he
      have hmem : e ∈ (bmRunAux program 0 ([], [])).2 := he
      rw [hsplit, hstep] at hmem
      simpa using hfree.2 e hmem
  · intro steps size initial
    rfl

theorem optLe_refl (a : Option Int) : optLe a a = true := by
  cases a <;> simp [optLe]

theorem optLe_trans (a b c : Option Int) (h1 : optLe a b = true)
    (h2 : optLe b c = true) : optLe a c = true := by
  cases a <;> cases b <;> cases c <;> simp_all [optLe]
  omega

/-- One generation updates the tracked best pair only on strict
improvement of the score: either it is unchanged, or it becomes the head
of the sorted generation with a strictly larger score. -/
theorem genStep_best (task : Task) (instances steps population_size elite_count : Nat)
    (mutation_rate crossover_rate : ℚ) (st st' : EvolveState)
    (h : genStep task instances steps population_size elite_count
      mutation_rate crossover_rate st = some st') :
    optLe st.best_score st'.best_score = true ∧
    ((st'.best_prog = st.best_prog ∧ st'.best_score = st.best_score) ∨
      (∃ s0, st'.best_score = some s0 ∧ optLt st.best_score s0 = true)) := by
  simp only [genStep] at h
  rcases hgi : genInputs task instances st.rng with ⟨inputs, r1⟩
  rw [hgi] at h
  split at h
  · exact absurd h (by simp)
  · next p0 s0 rest heq =>
    split at h
    · exact absurd h (by simp)
    · next new_population r2 hbreed =>
      have hst' : st' = ⟨new_population,
          (if optLt st.best_score s0 then (p0, some s0)
            else (st.best_prog, st.best_score)).1,
          (if optLt st.best_score s0 then (p0, some s0)
            else (st.best_prog, st.best_score)).2, r2⟩ := by
        injection h with h
        exact h.symm
      by_cases hlt : optLt st.best_score s0 = true
      · rw [hst']
        simp only [hlt, if_pos]
        constructor
        · cases hb : st.best_score with
          | none => rfl
          | some v =>
            rw [hb] at hlt
            simp only [optLt, decide_eq_true_eq] at hlt
            simp [optLe]
            omega
        · exact Or.inr ⟨s0, rfl, hlt⟩
      · rw [hst']
        rw [if_neg hlt]
        exact ⟨optLe_refl st.best_score, Or.inl ⟨rfl, rfl⟩⟩

/-- C7: the best-ever tracked (program, score) pair is updated only on
strict improvement of the score (first conjunct: per generation it is
either unchanged or replaced with a strictly larger score), so the tracked
best score is monotonically non-decreasing across any number of
generations (second conjunct, over the whole generation loop). -/
theorem evolve_best_monotone (task : Task)
    (instances steps population_size elite_count : Nat)
    (mutation_rate crossover_rate : ℚ) :
    (∀ st st', genStep task instances steps population_size elite_count
        mutation_rate crossover_rate st = some st' →
      optLe st.best_score st'.best_score = true ∧
      ((st'.best_prog = st.best_prog ∧ st'.best_score = st.best_score) ∨
        (∃ s0, st'.best_score = some s0 ∧ optLt st.best_score s0 = true))) ∧
    (∀ g st st', evolveLoop task instances steps population_size elite_count
        mutation_rate crossover_rate g st = some st' →
      optLe st.best_score st'.best_score = true) := by
  constructor
  · exact fun st st' h => genStep_best task instances steps population_size
      elite_count mutation_rate crossover_rate st st' h
  · intro g
    induction g with
    | zero =>
      intro st st' h
      simp only [evolveLoop] at h
      injection h with h
      rw [← h]
      exact optLe_refl st.best_score
    | succ g ih =>
      intro st st' h
      simp only [evolveLoop] at h
      split at h
      · exact absurd h (by simp)
      · next st1 hgen =>
        exact optLe_trans _ _ _
          (genStep_best task instances steps population_size elite_count
            mutation_rate crossover_rate st st1 hgen).1
          (ih st1 st' h)

theorem genInputs_length (task : Task) :
    ∀ (instances : Nat) (r : Rng), (genInputs task instances r).1.length = instances := by
  intro instances
  induction instances with
  | zero => intro r; rfl
  | succ k ih =>
    intro r
    simp only [genInputs]
    rcases hg : task.generate_input r with ⟨x, r1⟩
    simp only [hg]
    rcases hgs : genInputs task k r1 with ⟨xs, r2⟩
    simp only [hgs]
    have h2 := ih r1
    rw [hgs] at h2
    simpa using h2

theorem select_some (population : List (List Char)) (fitnesses : List Int)
    (r : Rng) (hlen : population.length = fitnesses.length)
    (hpop : population ≠ []) :
    ∃ p r', select population fitnesses r = some (p, r') := by
  rcases hmin : fitnesses.min? with _ | m
  · simp only [select, hmin]
    obtain ⟨x, r', heq, _⟩ := choice_of_ne_nil r population hpop
    exact ⟨x, r', heq⟩
  · simp only [select, hmin]
    by_cases hz : (selectWeights fitnesses m).sum = 0
    · rw [if_pos hz]
      obtain ⟨x, r', heq, _⟩ := choice_of_ne_nil r population hpop
      exact ⟨x, r', heq⟩
    · rw [if_neg hz]
      have hnn := selectWeights_nonneg fitnesses m hmin
      have htot := total_pos_of_sum_ne_zero _ hnn hz
      simp only [Rng.choicesWeighted]
      rw [if_neg (by omega)]
      have hidx : pickIdx (selectWeights fitnesses m)
          (r.next.1 % ((selectWeights fitnesses m).map Int.toNat).sum) <
          population.length := by
        rw [hlen, ← selectWeights_length fitnesses m]
        exact pickIdx_lt_length _ _ (Nat.mod_lt _ htot)
      rw [List.get?_eq_getElem?, List.getElem?_eq_getElem hidx]
      exact ⟨_, _, rfl⟩

theorem breedLoop_some (population : List (List Char)) (fitnesses : List Int)
    (population_size : Nat) (crossover_rate mutation_rate : ℚ)
    (hlen : population.length = fitnesses.length) (hpop : population ≠ []) :
    ∀ (fuel : Nat) (newPop : List (List Char)) (r : Rng), ∃ out r',
      breedLoop population fitnesses population_size crossover_rate
        mutation_rate fuel newPop r = some (out, r') ∧
      (population_size ≤ out.length ∨ out.length = newPop.length + fuel) := by
  intro fuel
  induction fuel with
  | zero =>
    intro newPop r
    exact ⟨newPop, r, rfl, Or.inr (by omega)⟩
  | succ fuel ih =>
    intro newPop r
    by_cases hguard : newPop.length < population_size
    · rcases hx : Rng.random r with ⟨x, r1⟩
      by_cases hcr : x < crossover_rate
      · obtain ⟨p1, r2, hsel1⟩ := select_some population fitnesses r1 hlen hpop
        obtain ⟨p2, r3, hsel2⟩ := select_some population fitnesses r2 hlen hpop
        rcases hco : crossover p1 p2 r3 with ⟨child, r4⟩
        rcases hmu : mutate child r4 mutation_rate with ⟨child', r5⟩
        obtain ⟨out, r', heq, hdisj⟩ := ih (newPop ++ [child']) r5
        refine ⟨out, r', ?_, ?_⟩
        · simp only [breedLoop, hx, hsel1, hsel2, hco, hmu]
          rw [if_pos hguard, if_pos hcr]
          exact heq
        · rcases hdisj with h | h
          · exact Or.inl h
          · right
            rw [h]
            simp
            omega
      · obtain ⟨p1, r2, hsel1⟩ := select_some population fitnesses r1 hlen hpop
        rcases hmu : mutate p1 r2 mutation_rate with ⟨child', r3⟩
        obtain ⟨out, r', heq, hdisj⟩ := ih (newPop ++ [child']) r3
        refine ⟨out, r', ?_, ?_⟩
        · simp only [breedLoop, hx, hsel1, hmu]
          rw [if_pos hguard, if_neg hcr]
          exact heq
        · rcases hdisj with h | h
          · exact Or.inl h
          · right
            rw [h]
            simp
            omega
    · refine ⟨newPop, r, ?_, Or.inl (by omega)⟩
      simp only [breedLoop]
      rw [if_neg hguard]

theorem genStep_some (task : Task)
    (instances steps population_size elite_count : Nat)
    (mutation_rate crossover_rate : ℚ) (st : EvolveState)
    (hps : 1 ≤ population_size) (hpop : st.population ≠ []) :
    ∃ st', genStep task instances steps population_size elite_count
        mutation_rate crossover_rate st = some st' ∧
      st'.population ≠ [] := by
  rcases hgi : genInputs task instances st.rng with ⟨inputs, r1⟩
  have hpairs_len : ((st.population.zip (st.population.map
      (fun prog => evaluate prog task steps inputs))).mergeSort
      (fun p q => decide (q.2 ≤ p.2))).length = st.population.length := by
    rw [List.length_mergeSort, List.length_zip, List.length_map]
    omega
  rcases hpairs : (st.population.zip (st.population.map
      (fun prog => evaluate prog task steps inputs))).mergeSort
      (fun p q => decide (q.2 ≤ p.2)) with _ | ⟨⟨p0, s0⟩, rest⟩
  · exfalso
    rw [hpairs] at hpairs_len
    have : st.population.length ≠ 0 := fun h => hpop (List.eq_nil_of_length_eq_zero h)
    simp at hpairs_len
    exact this hpairs_len.symm
  · have hmaps_len : (((p0, s0) :: rest).map Prod.fst).length =
        (((p0, s0) :: rest).map Prod.snd).length := by
      simp
    have hmap_ne : ((p0, s0) :: rest).map Prod.fst ≠ [] := by simp
    obtain ⟨out, r2, hbreed, hdisj⟩ := breedLoop_some
      (((p0, s0) :: rest).map Prod.fst) (((p0, s0) :: rest).map Prod.snd)
      population_size crossover_rate mutation_rate hmaps_len hmap_ne
      population_size ((((p0, s0) :: rest).map Prod.fst).take elite_count) r1
    refine ⟨⟨out, (if optLt st.best_score s0 then (p0, some s0)
      else (st.best_prog, st.best_score)).1,
      (if optLt st.best_score s0 then (p0, some s0)
      else (st.best_prog, st.best_score)).2, r2⟩, ?_, ?_⟩
    · simp only [genStep, hgi, hpairs, hbreed]
    · intro hnil
      have hout : out = [] := hnil
      rw [hout] at hdisj
      simp at hdisj
      rcases hdisj with h | h <;> omega

theorem evolveLoop_some (task : Task)
    (instances steps population_size elite_count : Nat)
    (mutation_rate crossover_rate : ℚ) (hps : 1 ≤ population_size) :
    ∀ (g : Nat) (st : EvolveState), st.population ≠ [] →
      ∃ st', evolveLoop task instances steps population_size elite_count
          mutation_rate crossover_rate g st = some st' ∧
        st'.population ≠ [] := by
  intro g
  induction g with
  | zero => exact fun st hpop => ⟨st, rfl, hpop⟩
  | succ g ih =>
    intro st hpop
    obtain ⟨st1, hgen, hpop1⟩ := genStep_some task instances steps
      population_size elite_count mutation_rate crossover_rate st hps hpop
    obtain ⟨st', hloop, hpop'⟩ := ih st1 hpop1
    refine ⟨st', ?_, hpop'⟩
    simp only [evolveLoop, hgen]
    exact hloop

theorem argmaxAux_spec :
    ∀ (rest scores : List Int) (bi i : Nat) (bv : Int),
      scores.drop i = rest → bi < scores.length → scores.getD bi 0 = bv →
      (argmaxAux bi bv i rest).1 < scores.length ∧
      scores.getD (argmaxAux bi bv i rest).1 0 = (argmaxAux bi bv i rest).2 ∧
      bv ≤ (argmaxAux bi bv i rest).2 ∧
      ∀ w ∈ rest, w ≤ (argmaxAux bi bv i rest).2 := by
  intro rest
  induction rest with
  | nil =>
    intro scores bi i bv _ hbi hget
    exact ⟨hbi, hget, le_refl bv, by simp⟩
  | cons v vs ih =>
    intro scores bi i bv hdrop hbi hget
    have hi : i < scores.length := by
      by_contra hle
      rw [List.drop_eq_nil_of_le (by omega)] at hdrop
      exact List.cons_ne_nil v vs hdrop.symm
    have hv : scores.getD i 0 = v := by
      rw [List.getD_eq_getElem _ _ hi]
      have := List.drop_eq_getElem_cons hi
      rw [hdrop] at this
      exact (List.cons.injEq _ _ _ _ ▸ this).1.symm
    have hdrop' : scores.drop (i + 1) = vs := by
      have := List.drop_eq_getElem_cons hi
      rw [hdrop] at this
      exact ((List.cons.injEq _ _ _ _ ▸ this).2).symm
    simp only [argmaxAux]
    by_cases hlt : bv < v
    · rw [if_pos hlt]
      obtain ⟨h1, h2, h3, h4⟩ := ih scores i (i + 1) v hdrop' hi hv
      refine ⟨h1, h2, le_of_lt (lt_of_lt_of_le hlt h3), ?_⟩
      intro w hw
      rcases List.mem_cons.mp hw with rfl | hw
      · exact h3
      · exact h4 w hw
    · rw [if_neg hlt]
      obtain ⟨h1, h2, h3, h4⟩ := ih scores bi (i + 1) bv hdrop' hbi hget
      refine ⟨h1, h2, h3, ?_⟩
      intro w hw
      rcases List.mem_cons.mp hw with rfl | hw
      · omega
      · exact h4 w hw

theorem argmax_spec (scores : List Int) (hne : scores ≠ []) :
    ∃ idx val, argmax scores = some (idx, val) ∧ idx < scores.length ∧
      scores.getD idx 0 = val ∧ ∀ w ∈ scores, w ≤ val := by
  rcases scores with _ | ⟨s, rest⟩
  · exact absurd rfl hne
  · obtain ⟨h1, h2, h3, h4⟩ := argmaxAux_spec rest (s :: rest) 0 1 s rfl
      (by simp) rfl
    refine ⟨_, _, rfl, h1, h2, ?_⟩
    intro w hw
    rcases List.mem_cons.mp hw with rfl | hw
    · exact h3
    · exact h4 w hw

theorem finalRound_spec (task : Task) (instances steps : Nat)
    (population : List (List Char)) (r : Rng) (hpop : population ≠ []) :
    ∃ idx, idx < population.length ∧
      finalRound task instances steps population r =
        some (population.getD idx [],
          (population.map (fun prog =>
            evaluate prog task steps (genInputs task instances r).1)).getD idx 0) ∧
      population.getD idx [] ∈ population ∧
      (∀ w ∈ population.map (fun prog =>
          evaluate prog task steps (genInputs task instances r).1),
        w ≤ (population.map (fun prog =>
          evaluate prog task steps (genInputs task instances r).1)).getD idx 0) := by
  rcases hgi : genInputs task instances r with ⟨final_inputs, r1⟩
  have hne : population.map (fun prog => evaluate prog task steps final_inputs) ≠ [] := by
    simpa using hpop
  obtain ⟨idx, val, hargmax, hidx, hval, hmax⟩ :=
    argmax_spec (population.map (fun prog => evaluate prog task steps final_inputs)) hne
  have hidx' : idx < population.length := by
    rw [List.length_map] at hidx
    exact hidx
  have hfi : (genInputs task instances r).1 = final_inputs := by rw [hgi]
  refine ⟨idx, hidx', ?_, ?_, ?_⟩
  · simp only [finalRound, hgi, hargmax]
  · rw [List.getD_eq_getElem _ _ hidx']
    exact List.getElem_mem hidx'
  · dsimp only
    rw [hval]
    exact hmax

/-- C6: after the generation loop, `evolve` performs one final evaluation
round on a fresh batch of `instances` task inputs (third conjunct) over
the last population and returns exactly that round's best pair: with a
positive population size the loop always yields a non-empty last
population and `evolve` equals `finalRound` applied to it — a function of
the last population and random state only, never of the best-ever pair
tracked during the loop (first conjunct) — and the final round returns a
member of that population paired with its own score from the fresh batch,
a maximum of that round's scores (second conjunct). -/
theorem evolve_final_round (population_size elite_count generations : Nat)
    (mutation_rate crossover_rate : ℚ) (task : Task) (instances steps : Nat)
    (r : Rng) :
    (1 ≤ population_size →
      ∃ st', evolveLoop task instances steps population_size elite_count
          mutation_rate crossover_rate generations
          ⟨List.replicate population_size [], [], none, r⟩ = some st' ∧
        st'.population ≠ [] ∧
        evolve population_size elite_count generations mutation_rate
          crossover_rate task instances steps r =
          finalRound task instances steps st'.population st'.rng) ∧
    (∀ (population : List (List Char)) (r' : Rng), population ≠ [] →
      ∃ idx, idx < population.length ∧
        finalRound task instances steps population r' =
          some (population.getD idx [],
            (population.map (fun prog =>
              evaluate prog task steps (genInputs task instances r').1)).getD idx 0) ∧
        population.getD idx [] ∈ population ∧
        (∀ w ∈ population.map (fun prog =>
            evaluate prog task steps (genInputs task instances r').1),
          w ≤ (population.map (fun prog =>
            evaluate prog task steps (genInputs task instances r').1)).getD idx 0)) ∧
    (∀ r' : Rng, (genInputs task instances r').1.length = instances) := by
  refine ⟨?_, ?_, ?_⟩
  · intro hps
    have hpop0 : (List.replicate population_size ([] : List Char)) ≠ [] := by
      intro h
      have := congrArg List.length h
      simp at this
      omega
    obtain ⟨st', hloop, hpop'⟩ := evolveLoop_some task instances steps
      population_size elite_count mutation_rate crossover_rate hps generations
      ⟨List.replicate population_size [], [], none, r⟩ hpop0
    refine ⟨st', hloop, hpop', ?_⟩
    simp only [evolve, hloop]
  · exact fun population r' hpop =>
      finalRound_spec task instances steps population r' hpop
  · exact fun r' => genInputs_length task instances r'

/-- C10: `main` passes the keyword argument `init_length` in its call to
`evolve`, `evolve` accepts no parameter of that name (and has no
`**kwargs`), so by Python call semantics every command-line invocation of
`main` raises `TypeError` before any evolution is performed. -/
theorem main_calls_evolve_with_unknown_keyword :
    "init_length" ∈ mainEvolveKeywordArgs ∧
    "init_length" ∉ evolveParamNames ∧
    mainEvolveCallRaisesTypeError = true := by
  refine ⟨by decide, by decide, by decide⟩

end EvoBF

namespace EvoBF
example : execute [] 100 8 [5,3,0,0,0,0,0,0] = [5,3,0,0,0,0,0,0] := by decide
example : execute ['+','+','+'] 2 1 [0] = [2] := by decide
example : execute ['+'] 1 1 [127] = [-128] := by decide
example : execute ['[','-',']'] 100 1 [5] = [0] := by decide
example : execute ['<','+'] 10 4 [0,0,0,0] = [0,0,0,1] := by decide
example : execute ['[','+',']','+'] 10 1 [0] = [1] := by decide
example : execute [']','+'] 10 1 [3] = [4] := by decide
example : execute ['[','>','+','<','-',']'] 100 2 [3,4] = [0,7] := by decide
end EvoBF

namespace EvoBF
example : build_bracket_map ['[', '+', ']'] = [(2, 0), (0, 2)] := by decide
example : bmLookup (build_bracket_map ['[', '[', ']']) 0 = none := by decide
example : bmLookup (build_bracket_map ['[', '[', ']']) 1 = some 2 := by decide
example : (select [['+'], ['-']] [0, 1] ⟨fun _ => 0, 0⟩).map (·.1) = some ['-'] := by decide
example : (select [['+'], ['-']] [-3, -3] ⟨fun _ => 0, 0⟩).map (·.1) = some ['+'] := by decide
example : (crossover ['+', '+', '+'] ['-', '-', '-'] ⟨fun _ => 0, 0⟩).1 = ['-', '-', '-'] := by decide
example : (evolve 1 0 0 0 0 (additionTask 2 0 0) 1 1 ⟨fun _ => 0, 0⟩).map (·.2) = some 0 := by decide
end EvoBF
